import Mathlib

/-!
Verification of the Syntaxis template resolution engine
(`src/syntaxis/lib`): the two template parsers (bracket Syntax-A and
grouping Syntax-B), the feature/lexical prefix mappers, reference
validation and the feature resolver.  Strings are modelled as `List Char`
(ASCII subset of Python `\w`, `\s`); the regex scans of the source are
embedded as deterministic scanners over character lists, following the
concrete patterns used in the source.
-/

namespace Syntaxis

deriving instance DecidableEq for Except

/-! ## Character-list helpers mirroring Python string primitives -/

/-- A Python-style accumulating loop over a list with early error exit:
the element results in order, stopping at the first failure. -/
def mapME (f : α → Except ε β) : List α → Except ε (List β)
  | [] => .ok []
  | x :: xs =>
    match f x with
    | .error e => .error e
    | .ok y =>
      match mapME f xs with
      | .error e => .error e
      | .ok ys => .ok (y :: ys)

/-- ASCII model of the regex class `\w` used in the source patterns. -/
def isWordChar (c : Char) : Bool :=
  c.isAlpha || c.isDigit || c = '_'

/-- Python `str.strip()` on a character list (whitespace both ends). -/
def trimChars (cs : List Char) : List Char :=
  ((cs.dropWhile Char.isWhitespace).reverse.dropWhile Char.isWhitespace).reverse

/-- Python `str.strip(chars)` generalisation: drop characters satisfying
`p` from both ends. -/
def stripEnds (p : Char → Bool) (cs : List Char) : List Char :=
  ((cs.dropWhile p).reverse.dropWhile p).reverse

/-- Python `str.split(sep)` keeping empty parts. -/
def splitChar (sep : Char) : List Char → List (List Char)
  | [] => [[]]
  | c :: rest =>
    let r := splitChar sep rest
    if c = sep then [] :: r
    else
      match r with
      | h :: t => (c :: h) :: t
      | [] => [[c]]

/-- Python `str.count(ch)` for a single character. -/
def countChar (cs : List Char) (ch : Char) : Nat :=
  (cs.filter (fun c => c = ch)).length

/-- `a` is a prefix of `b` (Python `b.startswith(a)`). -/
def isPref : List Char → List Char → Bool
  | [], _ => true
  | _ :: _, [] => false
  | a :: as, b :: bs => a = b && isPref as bs

/-- Digits to a natural number, Python `int` on a digit string. -/
def digitsToNat (cs : List Char) : Nat :=
  cs.foldl (fun acc c => acc * 10 + (c.toNat - '0'.toNat)) 0

/-! ## Constant tables from `syntaxis/lib/constants.py` -/

/-- `FEATURE_CATEGORIES` from `constants.py`, in dict insertion order. -/
def FEATURE_CATEGORIES : List (String × String) :=
  [("nom", "case"), ("gen", "case"), ("acc", "case"), ("voc", "case"),
   ("masc", "gender"), ("fem", "gender"), ("neut", "gender"),
   ("gender", "gender"), ("*gender*", "gender"),
   ("sg", "number"), ("pl", "number"), ("number", "number"),
   ("*number*", "number"),
   ("present", "tense"), ("aorist", "tense"), ("paratatikos", "tense"),
   ("active", "voice"), ("passive", "voice"),
   ("pri", "person"), ("sec", "person"), ("ter", "person"),
   ("person", "person"), ("*person*", "person"),
   ("personal_strong", "type"), ("personal_weak", "type"),
   ("demonstrative", "type"), ("interrogative", "type"),
   ("possessive", "type"), ("relative", "type"), ("definite", "type"),
   ("indefinite", "type")]

/-- `LEXICAL_VALUES` from `constants.py` (a Python set; listed in source
literal order, only membership is ever used except in `LexicalMapper`
where order affects only the conflict list). -/
def LEXICAL_VALUES : List String :=
  ["noun", "verb", "adjective", "adverb", "article", "pronoun",
   "numeral", "preposition", "conjunction"]

/-- `CASE_VALUES` from `constants.py`. -/
def CASE_VALUES : List String := ["nom", "acc", "gen", "voc"]

/-- `GENDER_VALUES` from `constants.py` (includes the gender wildcard). -/
def GENDER_VALUES : List String := ["masc", "fem", "neut", "*gender*"]

/-- `NUMBER_VALUES` from `constants.py`. -/
def NUMBER_VALUES : List String := ["sg", "pl", "*number*"]

/-- `TENSE_VALUES` from `constants.py`. -/
def TENSE_VALUES : List String := ["present", "aorist", "paratatikos"]

/-- `VOICE_VALUES` from `constants.py`. -/
def VOICE_VALUES : List String := ["active", "passive"]

/-- `PERSON_VALUES` from `constants.py`. -/
def PERSON_VALUES : List String := ["pri", "sec", "ter", "*person*"]

/-- Invariable lexical types checked by `Token.is_invariable`. -/
def INVARIABLE_VALUES : List String := ["adverb", "preposition", "conjunction"]

/-! ## FeatureMapper (`feature_mapper.py`) and
LexicalMapper (`lexical_mapper.py`) -/

/-- Errors raised by `FeatureMapper.get_category` (both `ValueError`s in
the source, distinguished by message). -/
inductive FMError where
  | unknownFeature (tok : String)
  | ambiguousFeature (tok : String) (conflicts : List String)
deriving DecidableEq, Repr

/-- Assoc lookup mirroring Python dict membership/subscript on
`FEATURE_CATEGORIES`. -/
def lookupTable : List (String × String) → String → Option String
  | [], _ => none
  | (k, v) :: rest, n => if n = k then some v else lookupTable rest n

/-- The table keys having `tok` as a prefix, in table order
(the `valid_features` list of `FeatureMapper.get_category`). -/
def prefixCandidates (tok : String) : List String :=
  (FEATURE_CATEGORIES.map Prod.fst).filter (fun k => isPref tok.data k.data)

/-- `FeatureMapper.get_category`: exact table match first, otherwise the
unique table key with `tok` as a prefix; zero candidates is
`UnknownFeature`, several candidates is `AmbiguousFeature`. -/
def getCategory (tok : String) : Except FMError (String × String) :=
  match lookupTable FEATURE_CATEGORIES tok with
  | some cat => .ok (tok, cat)
  | none =>
    match prefixCandidates tok with
    | [] => .error (.unknownFeature tok)
    | [k] =>
      match lookupTable FEATURE_CATEGORIES k with
      | some cat => .ok (k, cat)
      | none => .error (.unknownFeature tok)
    | k :: k2 :: ks => .error (.ambiguousFeature tok (k :: k2 :: ks))

/-- Errors raised by `LexicalMapper.get_lexical`. -/
inductive LexError where
  | unknownLexical (tok : String)
  | ambiguousLexical (tok : String) (conflicts : List String)
deriving DecidableEq, Repr

/-- `LexicalMapper.get_lexical`: collect every lexical-type name with
`tok` as a prefix (no exact-match fast path in the source); zero is
`UnknownLexical`, several is `AmbiguousLexical`. -/
def getLexical (tok : String) : Except LexError String :=
  match LEXICAL_VALUES.filter (fun k => isPref tok.data k.data) with
  | [] => .error (.unknownLexical tok)
  | [k] => .ok k
  | k :: k2 :: ks => .error (.ambiguousLexical tok (k :: k2 :: ks))

/-! ## AST types (`templates/ast.py`) -/

/-- `Feature` dataclass: a grammatical value and its category. -/
structure Feature where
  name : String
  category : String
deriving DecidableEq, Repr

/-- `POSToken` dataclass: a lexical type with optional direct features. -/
structure POSToken where
  lexical : String
  direct_features : List Feature
deriving DecidableEq, Repr

/-- `Group` dataclass: tokens sharing group features, the sequentially
assigned `reference_id`, and an optional backward reference. -/
structure Group where
  tokens : List POSToken
  group_features : List Feature
  reference_id : Nat
  references : Option Nat
deriving DecidableEq, Repr

/-- `TemplateAST` dataclass: groups plus the syntax version. -/
structure TemplateAST where
  groups : List Group
  version : Nat
deriving DecidableEq, Repr

/-! ## Syntax-B parser (`templates/v2_parser.py`) -/

/-- Errors raised by `V2Parser` (all `ValueError`s in the source,
distinguished by their messages). -/
inductive V2Error where
  | unbalancedParens
  | unbalancedBraces
  | emptyGroup
  | feature (e : FMError)
  | nonExistentReference (refId total : Nat)
  | forwardOrSelfReference (refId pos : Nat)
deriving DecidableEq, Repr

/-- One attempt of the group regex `\(([^)]+)\)@(\{[^}]+\}|\$\d+)` at the
head of the input: on success returns the token span, the raw spec
(`match.group(2)`, braces or dollar included) and the rest of the input. -/
def matchGroupAt (cs : List Char) : Option (List Char × List Char × List Char) :=
  match cs with
  | '(' :: rest =>
    let toks := rest.takeWhile (fun c => c ≠ ')')
    if toks.isEmpty then none
    else
      match rest.dropWhile (fun c => c ≠ ')') with
      | ')' :: '@' :: r2 =>
        match r2 with
        | '{' :: r3 =>
          let feats := r3.takeWhile (fun c => c ≠ '}')
          if feats.isEmpty then none
          else
            match r3.dropWhile (fun c => c ≠ '}') with
            | '}' :: r5 => some (toks, '{' :: (feats ++ ['}']), r5)
            | _ => none
        | '$' :: r3 =>
          let digits := r3.takeWhile Char.isDigit
          if digits.isEmpty then none
          else some (toks, '$' :: digits, r3.drop digits.length)
        | _ => none
      | _ => none
  | _ => none

/-- `re.finditer` scan for the group pattern: try a match at each
position, emit it and continue after its end, otherwise advance one
character.  Fuel bounds the scan (each step consumes at least one
character, so input length is always enough). -/
def findGroupsAux : Nat → List Char → List (List Char × List Char)
  | 0, _ => []
  | _ + 1, [] => []
  | fuel + 1, c :: rest =>
    match matchGroupAt (c :: rest) with
    | some (toks, spec, r) => (toks, spec) :: findGroupsAux fuel r
    | none => findGroupsAux fuel rest

/-- All matches of the group pattern in the template text. -/
def findGroups (cs : List Char) : List (List Char × List Char) :=
  findGroupsAux cs.length cs

/-- One attempt of the token regex `(\w+)(?:\{([^}]+)\})?` at the head of
the input: the word run, the optional inline-brace content, and the rest. -/
def matchTokenAt (cs : List Char) : Option (List Char × Option (List Char) × List Char) :=
  match cs with
  | c :: _ =>
    if isWordChar c then
      let w := cs.takeWhile isWordChar
      let r1 := cs.dropWhile isWordChar
      match r1 with
      | '{' :: r2 =>
        let feats := r2.takeWhile (fun ch => ch ≠ '}')
        if feats.isEmpty then some (w, none, r1)
        else
          match r2.dropWhile (fun ch => ch ≠ '}') with
          | '}' :: r4 => some (w, some feats, r4)
          | _ => some (w, none, r1)
      | _ => some (w, none, r1)
    else none
  | [] => none

/-- `re.finditer` scan for the token pattern. -/
def findTokensAux : Nat → List Char → List (List Char × Option (List Char))
  | 0, _ => []
  | _ + 1, [] => []
  | fuel + 1, c :: rest =>
    match matchTokenAt (c :: rest) with
    | some (w, ob, r) => (w, ob) :: findTokensAux fuel r
    | none => findTokensAux fuel rest

/-- All matches of the token pattern in a group's token span. -/
def findTokens (cs : List Char) : List (List Char × Option (List Char)) :=
  findTokensAux cs.length cs

/-- `V2Parser._parse_features`: strip braces, split on colons, strip each
name, skip empties, resolve each through `FeatureMapper.get_category`. -/
def parseFeatures (spec : List Char) : Except FMError (List Feature) :=
  let inner := stripEnds (fun c => c = '{' || c = '}') spec
  let names := ((splitChar ':' inner).map trimChars).filter (fun n => ¬ n.isEmpty)
  match mapME (fun n => getCategory (String.mk n)) names with
  | .error e => .error e
  | .ok pairs => .ok (pairs.map (fun p => ⟨p.fst, p.snd⟩))

/-- `V2Parser._parse_tokens`: every token-pattern match becomes a
`POSToken`; inline braces are re-wrapped and sent through
`_parse_features` exactly as the source does. -/
def parseTokens (cs : List Char) : Except FMError (List POSToken) :=
  mapME (fun m =>
    match m with
    | (w, none) => .ok ⟨String.mk w, []⟩
    | (w, some f) =>
      match parseFeatures ('{' :: (f ++ ['}'])) with
      | .error e => .error e
      | .ok fs => .ok ⟨String.mk w, fs⟩)
    (findTokens cs)

/-- The `\(\s*\)@` empty-group test at one position. -/
def emptyGroupAt (cs : List Char) : Bool :=
  match cs with
  | '(' :: rest =>
    match rest.dropWhile Char.isWhitespace with
    | ')' :: '@' :: _ => true
    | _ => false
  | _ => false

/-- `re.search` for the `\(\s*\)@` empty-group pattern. -/
def hasEmptyGroup : List Char → Bool
  | [] => false
  | c :: rest => emptyGroupAt (c :: rest) || hasEmptyGroup rest

/-- The loop body of `V2Parser._parse_groups`: each regex match becomes a
`Group`, with `reference_id` assigned sequentially from `pos`. -/
def buildGroups : List (List Char × List Char) → Nat → Except V2Error (List Group)
  | [], _ => .ok []
  | (toks, spec) :: rest, pos =>
    let tstr := trimChars toks
    if tstr.isEmpty then .error .emptyGroup
    else
      match parseTokens tstr with
      | .error e => .error (.feature e)
      | .ok tokens =>
        let build := fun (g : Group) =>
          match buildGroups rest (pos + 1) with
          | .error e => .error e
          | .ok gs => .ok (g :: gs)
        match spec with
        | '$' :: ds => build ⟨tokens, [], pos, some (digitsToNat ds)⟩
        | _ =>
          match parseFeatures spec with
          | .error e => .error (.feature e)
          | .ok fs => build ⟨tokens, fs, pos, none⟩

/-- `V2Parser._parse_groups`: pre-checks (balanced parentheses and
braces, no `()@` empty group) then the group-pattern scan. -/
def parseGroups (cs : List Char) : Except V2Error (List Group) :=
  if countChar cs '(' ≠ countChar cs ')' then .error .unbalancedParens
  else if countChar cs '{' ≠ countChar cs '}' then .error .unbalancedBraces
  else if hasEmptyGroup cs then .error .emptyGroup
  else buildGroups (findGroups cs) 1

/-- The loop of `V2Parser._validate_references` with the running
1-indexed position and the total group count. -/
def validateRefsAux : List Group → Nat → Nat → Except V2Error Unit
  | [], _, _ => .ok ()
  | g :: rest, pos, total =>
    match g.references with
    | none => validateRefsAux rest (pos + 1) total
    | some r =>
      if r > total then .error (.nonExistentReference r total)
      else if r ≥ pos then .error (.forwardOrSelfReference r pos)
      else validateRefsAux rest (pos + 1) total

/-- `V2Parser._validate_references` over the whole group list. -/
def validateRefs (gs : List Group) : Except V2Error Unit :=
  validateRefsAux gs 1 gs.length

/-- `V2Parser.parse`: strip, extract groups, validate references. -/
def v2Parse (s : String) : Except V2Error TemplateAST :=
  match parseGroups (trimChars s.data) with
  | .error e => .error e
  | .ok gs =>
    match validateRefs gs with
    | .error e => .error e
    | .ok _ => .ok ⟨gs, 2⟩

/-! ## Syntax-A parser (`templates/api.py` and `templates/v1_parser.py`) -/

/-- Errors raised by `Template` (`TemplateParseError`) and by the
feature mapper during `V1Parser` conversion. -/
inductive V1Error where
  | emptyTemplate
  | noTokensFound
  | unknownPOS (lexical : String)
  | unexpectedFeatures (lexical : String)
  | wrongArity (lexical : String) (got : Nat)
  | invalidOrDuplicateFeature (lexical feature : String)
  | missingRequired (lexical : String)
  | feature (e : FMError)
deriving DecidableEq, Repr

/-- Modelled from the spec: the `Token` class of
`syntaxis.lib.templates.models` is not in the source tree (only its
callers in `templates/api.py` and `templates/v1_parser.py` are).  Per the
data model it is a record of the lexical type plus one optional slot per
feature category, populated by the shape-rule parsers. -/
structure VToken where
  lexical : String
  case : Option String := none
  gender : Option String := none
  number : Option String := none
  tense : Option String := none
  voice : Option String := none
  person : Option String := none
deriving DecidableEq, Repr

/-- Modelled from the spec: `Token.is_invariable` — adverbs, prepositions
and conjunctions take no features (§4.3 step 4). -/
def VToken.is_invariable (t : VToken) : Bool :=
  t.lexical ∈ INVARIABLE_VALUES

/-- One entry of the `features()` mapping: present exactly when the slot
is populated. -/
def optEntry (cat : String) (v : Option String) : List (String × String) :=
  match v with
  | some x => [(cat, x)]
  | none => []

/-- Modelled from the spec: `Token.features()` — the category-to-value
mapping of the populated slots (used by `V1Parser.parse`); iteration
order fixed as case, gender, number, tense, voice, person. -/
def VToken.features (t : VToken) : List (String × String) :=
  optEntry "case" t.case ++ optEntry "gender" t.gender ++
  optEntry "number" t.number ++ optEntry "tense" t.tense ++
  optEntry "voice" t.voice ++ optEntry "person" t.person

/-- The feature loop of `Template._parse_nominal_features`: each feature
must be an exact member of the case, gender or number value sets, hitting
a category not yet assigned. -/
def assignNominal (lex : String) : VToken → List String → Except V1Error VToken
  | t, [] => .ok t
  | t, f :: fs =>
    if f ∈ CASE_VALUES ∧ t.case = none then
      assignNominal lex { t with case := some f } fs
    else if f ∈ GENDER_VALUES ∧ t.gender = none then
      assignNominal lex { t with gender := some f } fs
    else if f ∈ NUMBER_VALUES ∧ t.number = none then
      assignNominal lex { t with number := some f } fs
    else .error (.invalidOrDuplicateFeature lex f)

/-- The feature loop of `Template._parse_verbal_features`. -/
def assignVerbal (lex : String) : VToken → List String → Except V1Error VToken
  | t, [] => .ok t
  | t, f :: fs =>
    if f ∈ TENSE_VALUES ∧ t.tense = none then
      assignVerbal lex { t with tense := some f } fs
    else if f ∈ VOICE_VALUES ∧ t.voice = none then
      assignVerbal lex { t with voice := some f } fs
    else if f ∈ PERSON_VALUES ∧ t.person = none then
      assignVerbal lex { t with person := some f } fs
    else if f ∈ NUMBER_VALUES ∧ t.number = none then
      assignVerbal lex { t with number := some f } fs
    else .error (.invalidOrDuplicateFeature lex f)

/-- The feature loop of `Template._parse_pronoun_features`. -/
def assignPronoun (lex : String) : VToken → List String → Except V1Error VToken
  | t, [] => .ok t
  | t, f :: fs =>
    if f ∈ CASE_VALUES ∧ t.case = none then
      assignPronoun lex { t with case := some f } fs
    else if f ∈ PERSON_VALUES ∧ t.person = none then
      assignPronoun lex { t with person := some f } fs
    else if f ∈ NUMBER_VALUES ∧ t.number = none then
      assignPronoun lex { t with number := some f } fs
    else if f ∈ GENDER_VALUES ∧ t.gender = none then
      assignPronoun lex { t with gender := some f } fs
    else .error (.invalidOrDuplicateFeature lex f)

/-- `Template._parse_nominal_features`: arity 3, assignment loop, then
the completeness check. -/
def parseNominalFeatures (t : VToken) (features : List String) (lex : String) :
    Except V1Error VToken :=
  if features.length ≠ 3 then .error (.wrongArity lex features.length)
  else
    match assignNominal lex t features with
    | .error e => .error e
    | .ok t =>
      if t.case = none ∨ t.gender = none ∨ t.number = none then
        .error (.missingRequired lex)
      else .ok t

/-- `Template._parse_verbal_features`: arity 4, assignment loop, then the
completeness check. -/
def parseVerbalFeatures (t : VToken) (features : List String) (lex : String) :
    Except V1Error VToken :=
  if features.length ≠ 4 then .error (.wrongArity lex features.length)
  else
    match assignVerbal lex t features with
    | .error e => .error e
    | .ok t =>
      if t.tense = none ∨ t.voice = none ∨ t.person = none ∨ t.number = none then
        .error (.missingRequired lex)
      else .ok t

/-- `Template._parse_pronoun_features`: arity 3 or 4, assignment loop,
then the completeness check (gender optional). -/
def parsePronounFeatures (t : VToken) (features : List String) (lex : String) :
    Except V1Error VToken :=
  if features.length < 3 ∨ features.length > 4 then
    .error (.wrongArity lex features.length)
  else
    match assignPronoun lex t features with
    | .error e => .error e
    | .ok t =>
      if t.case = none ∨ t.person = none ∨ t.number = none then
        .error (.missingRequired lex)
      else .ok t

/-- `Template._parse_token`: split the bracket span on colons, strip each
part; part 0 is the lexical type checked by exact membership in
`LEXICAL_VALUES`; the rest go through the per-lexical-type shape rules. -/
def parseTok (cs : List Char) : Except V1Error VToken :=
  let parts := (splitChar ':' cs).map (fun p => String.mk (trimChars p))
  let lex := parts.headD ""
  if lex ∉ LEXICAL_VALUES then .error (.unknownPOS lex)
  else
    let features := parts.tail
    let t : VToken := ⟨lex, none, none, none, none, none, none⟩
    if t.is_invariable then
      if ¬ features.isEmpty then .error (.unexpectedFeatures lex) else .ok t
    else if lex = "noun" ∨ lex = "adjective" ∨ lex = "article" then
      parseNominalFeatures t features lex
    else if lex = "verb" then
      parseVerbalFeatures t features lex
    else if lex = "pronoun" then
      parsePronounFeatures t features lex
    else .ok t

/-- One attempt of the bracket regex `\[([^\]]+)\]` at the head of the
input. -/
def matchBracketAt (cs : List Char) : Option (List Char × List Char) :=
  match cs with
  | '[' :: rest =>
    let inner := rest.takeWhile (fun c => c ≠ ']')
    if inner.isEmpty then none
    else
      match rest.dropWhile (fun c => c ≠ ']') with
      | ']' :: r => some (inner, r)
      | _ => none
  | _ => none

/-- `re.findall` scan for the bracket pattern. -/
def findBracketsAux : Nat → List Char → List (List Char)
  | 0, _ => []
  | _ + 1, [] => []
  | fuel + 1, c :: rest =>
    match matchBracketAt (c :: rest) with
    | some (inner, r) => inner :: findBracketsAux fuel r
    | none => findBracketsAux fuel rest

/-- All bracket spans of a Syntax-A template. -/
def findBrackets (cs : List Char) : List (List Char) :=
  findBracketsAux cs.length cs

/-- The feature-expansion loop of `V1Parser.parse`: each value of
`token.features()` is re-resolved through `FeatureMapper.get_category`. -/
def expandFeatures (entries : List (String × String)) : Except V1Error (List Feature) :=
  match mapME (fun e => (getCategory e.snd).mapError V1Error.feature) entries with
  | .error e => .error e
  | .ok pairs => .ok (pairs.map (fun p => ⟨p.fst, p.snd⟩))

/-- The group-building loop of `V1Parser.parse`: each parsed token
becomes a single-token group with sequential `reference_id`. -/
def convertTokens : List VToken → Nat → Except V1Error (List Group)
  | [], _ => .ok []
  | t :: ts, i =>
    match expandFeatures t.features with
    | .error e => .error e
    | .ok feats =>
      match convertTokens ts (i + 1) with
      | .error e => .error e
      | .ok rest => .ok (⟨[⟨t.lexical, []⟩], feats, i + 1, none⟩ :: rest)

/-- `V1Parser.parse` (through `Template.parse`): empty check, bracket
scan, per-span token parsing, then conversion to the common AST. -/
def v1Parse (s : String) : Except V1Error TemplateAST :=
  if (trimChars s.data).isEmpty then .error .emptyTemplate
  else
    let spans := findBrackets s.data
    if spans.isEmpty then .error .noTokensFound
    else
      match mapME parseTok spans with
      | .error e => .error e
      | .ok ts =>
        match convertTokens ts 0 with
        | .error e => .error e
        | .ok gs => .ok ⟨gs, 1⟩

/-! ## Resolver / generator (`lib/syntaxis.py`) -/

/-- An override warning emitted by `Syntaxis._merge_features` when a
direct feature replaces one already present (logged, never raised). -/
structure OverrideEvent where
  category : String
  oldName : String
  newName : String
  token : String
deriving DecidableEq, Repr

/-- Insertion-ordered dict update: the Python `merged[category] = feature`
on a dict built in insertion order. -/
def updAssoc : List (String × Feature) → Feature → List (String × Feature)
  | [], f => [(f.category, f)]
  | (k, v) :: rest, f =>
    if f.category = k then (k, f) :: rest else (k, v) :: updAssoc rest f

/-- Dict lookup on the ordered assoc list. -/
def lookupAssoc : List (String × Feature) → String → Option Feature
  | [], _ => none
  | (k, v) :: rest, c => if c = k then some v else lookupAssoc rest c

/-- `Syntaxis._merge_features` as the pure function of design note §9:
base features keyed by category, overrides replacing in place, and the
override warnings returned instead of logged (`warn_on_override` decides
whether they are produced, `tokLex` stands for the log context). -/
def mergeFeaturesEv (base override : List Feature) (warn : Bool) (tokLex : String) :
    List Feature × List OverrideEvent :=
  let baseDict := base.foldl (fun d f => updAssoc d f) []
  let step := fun (acc : List (String × Feature) × List OverrideEvent) (f : Feature) =>
    match lookupAssoc acc.fst f.category with
    | some old =>
      (updAssoc acc.fst f,
       if warn then acc.snd ++ [⟨f.category, old.name, f.name, tokLex⟩] else acc.snd)
    | none => (updAssoc acc.fst f, acc.snd)
  let r := override.foldl step (baseDict, [])
  (r.fst.map Prod.snd, r.snd)

/-- The silent merge used by `_resolve_group_features`
(`warn_on_override=False`). -/
def mergeFeatures (base override : List Feature) : List Feature :=
  (mergeFeaturesEv base override false "").fst

/-- Python list subscript with negative indexing, as in
`all_groups[group.references - 1]` (out of range is `none`, the
`IndexError` case). -/
def pyIdx (l : List Group) (i : Int) : Option Group :=
  if 0 ≤ i then l.get? i.toNat
  else if 0 ≤ (l.length : Int) + i then l.get? ((l.length : Int) + i).toNat
  else none

/-- `Syntaxis._resolve_group_features`: follow the reference (Python
index `references - 1`), recursively resolve, then overlay the group's
own features.  The source recursion is unbounded; it is embedded with a
fuel parameter, `none` standing for a recursion that does not complete
within the given depth (or an `IndexError`). -/
def resolveFuel : Nat → Group → List Group → Option (List Feature)
  | 0, _, _ => none
  | fuel + 1, g, gs =>
    match g.references with
    | none => some g.group_features
    | some r =>
      match pyIdx gs ((r : Int) - 1) with
      | none => none
      | some rg =>
        (resolveFuel fuel rg gs).map (fun fs => mergeFeatures fs g.group_features)

/-- `GenerationError` outcomes of `_generate_from_ast`: the
no-matching-word `ValueError`, or a resolution that does not complete
(reference recursion never reaching a referent, impossible for validated
backward references). -/
inductive GenError where
  | noMatchingWord (lexical : String) (features : List (String × String))
  | resolutionFailed
deriving DecidableEq, Repr

/-- The lexicon collaborator of §6: `get_random_word(lexical, features)`
returning a word or `NotFound` (`none`). -/
def Lexicon : Type := String → List (String × String) → Option String

/-- A lexicon with no matching word for any request. -/
def lexiconEmpty : Lexicon := fun _ _ => none

/-- A lexicon that always produces a word (named after the lexical type
requested). -/
def lexiconAny : Lexicon := fun lex _ => some lex

/-- The per-token body of `_generate_from_ast`: merge the resolved group
features with the token's direct features (with override warnings),
flatten to the category-to-name map, query the lexicon. -/
def generateToken (lex : Lexicon) (resolved : List Feature) (tok : POSToken) :
    Except GenError (String × List OverrideEvent) :=
  let m := mergeFeaturesEv resolved tok.direct_features true tok.lexical
  let featureDict := m.fst.map (fun f => (f.category, f.name))
  match lex tok.lexical featureDict with
  | some w => .ok (w, m.snd)
  | none => .error (.noMatchingWord tok.lexical featureDict)

/-- The token loop of `_generate_from_ast` over one group. -/
def generateGroupTokens (lex : Lexicon) (resolved : List Feature) :
    List POSToken → Except GenError (List String × List OverrideEvent)
  | [] => .ok ([], [])
  | tok :: toks => do
    let r ← generateToken lex resolved tok
    let rest ← generateGroupTokens lex resolved toks
    pure (r.fst :: rest.fst, r.snd ++ rest.snd)

/-- The group loop of `_generate_from_ast`: resolve each group's
features (resolution fuel `gs.length` covers every validated backward
chain), then generate each token; words in template order, override
events collected rather than logged. -/
def generateGroups (lex : Lexicon) (gs : List Group) :
    List Group → Except GenError (List String × List OverrideEvent)
  | [] => .ok ([], [])
  | g :: rest => do
    match resolveFuel gs.length g gs with
    | none => throw .resolutionFailed
    | some resolved => do
      let r ← generateGroupTokens lex resolved g.tokens
      let rs ← generateGroups lex gs rest
      pure (r.fst ++ rs.fst, r.snd ++ rs.snd)

/-- `Syntaxis._generate_from_ast`. -/
def generateFromAst (lex : Lexicon) (ast : TemplateAST) :
    Except GenError (List String × List OverrideEvent) :=
  generateGroups lex ast.groups ast.groups

/-! ## Specification-side checkers (decidable statements of the claimed
invariants, to be compared with the source-translated functions) -/

/-- The reference bounds actually enforced by `_validate_references`,
with the running 1-indexed position: `references ≤ total` and
`references < position`. -/
def checkRefBoundsAux : List Group → Nat → Nat → Bool
  | [], _, _ => true
  | g :: rest, pos, total =>
    (match g.references with
     | none => true
     | some r => decide (r ≤ total) && decide (r < pos)) &&
    checkRefBoundsAux rest (pos + 1) total

/-- The reference bounds enforced over a whole group list. -/
def checkRefBounds (gs : List Group) : Bool :=
  checkRefBoundsAux gs 1 gs.length

/-- The bounds claimed by the spec: every reference `N` satisfies
`1 ≤ N < reference_id` of its group. -/
def refsInClaimedRange (gs : List Group) : Bool :=
  gs.all (fun g =>
    match g.references with
    | none => true
    | some r => decide (1 ≤ r ∧ r < g.reference_id))

/-- Every reference in the list is at least 1. -/
def refsPositive (gs : List Group) : Bool :=
  gs.all (fun g =>
    match g.references with
    | none => true
    | some r => decide (1 ≤ r))

/-- A feature list has at most one feature per category. -/
def distinctCats (fs : List Feature) : Bool :=
  decide (fs.map Feature.category).Nodup

/-- An optional feature slot, when populated, holds an exact member of
the given value set. -/
def optIn (v : Option String) (l : List String) : Bool :=
  match v with
  | none => true
  | some x => decide (x ∈ l)

/-- Every populated slot of a Syntax-A token is an exact member of its
category's value set from `constants.py`. -/
def fieldsExact (t : VToken) : Bool :=
  optIn t.case CASE_VALUES && optIn t.gender GENDER_VALUES &&
  optIn t.number NUMBER_VALUES && optIn t.tense TENSE_VALUES &&
  optIn t.voice VOICE_VALUES && optIn t.person PERSON_VALUES

/-- The first colon-separated segment of a bracket span, stripped — the
text the source takes as the lexical type. -/
def firstSegment (cs : List Char) : String :=
  String.mk (trimChars ((splitChar ':' cs).headD []))

/-! ## Helper lemmas -/

/-- The validator loop succeeds exactly when every reference obeys the
enforced bounds (`≤ total`, `< position`). -/
lemma validateRefsAux_ok_iff (gs : List Group) :
    ∀ pos total, validateRefsAux gs pos total = .ok () ↔
      checkRefBoundsAux gs pos total = true := by
  induction gs with
  | nil => intro pos total; simp [validateRefsAux, checkRefBoundsAux]
  | cons g rest ih =>
    intro pos total
    simp only [validateRefsAux, checkRefBoundsAux]
    cases href : g.references with
    | none => simpa using ih (pos + 1) total
    | some r =>
      by_cases h1 : r > total
      · simp [h1, Nat.not_le_of_lt h1]
      · by_cases h2 : r ≥ pos
        · simp [h1, h2, Nat.not_lt_of_le h2]
        · have hlt : r < pos := Nat.lt_of_not_le h2
          have hle : r ≤ total := Nat.le_of_not_lt h1
          simp [h1, h2, hlt, hle, ih (pos + 1) total]

/-- Positional form of the enforced bounds: if the validator loop
succeeds, the reference of the group at index `i` is at most `total` and
below `pos + i`. -/
lemma validateRefsAux_bound (gs : List Group) :
    ∀ pos total, validateRefsAux gs pos total = .ok () →
      ∀ i g r, gs.get? i = some g → g.references = some r →
        r ≤ total ∧ r < pos + i := by
  induction gs with
  | nil => intro pos total _ i g r hg; simp at hg
  | cons g0 rest ih =>
    intro pos total hok i g r hg href
    rw [validateRefsAux] at hok
    cases h0 : g0.references with
    | none =>
      rw [h0] at hok
      cases i with
      | zero =>
        simp at hg; subst hg; rw [h0] at href; exact absurd href (by simp)
      | succ j =>
        simp only [List.get?_cons_succ] at hg
        have := ih (pos + 1) total hok j g r hg href
        omega
    | some r0 =>
      rw [h0] at hok
      by_cases h1 : r0 > total
      · simp [h1] at hok
      · by_cases h2 : r0 ≥ pos
        · simp [h1, h2] at hok
        · simp only [h1, h2, if_false] at hok
          cases i with
          | zero =>
            simp at hg; subst hg
            rw [h0] at href
            injection href with hr; subst hr
            exact ⟨Nat.le_of_not_lt h1, by omega⟩
          | succ j =>
            simp only [List.get?_cons_succ] at hg
            have := ih (pos + 1) total hok j g r hg href
            omega

/-- Resolution fuel is monotone: success at some depth persists at any
larger depth. -/
lemma resolveFuel_mono : ∀ (m n : Nat) (g : Group) (gs : List Group)
    (fs : List Feature), m ≤ n → resolveFuel m g gs = some fs →
    resolveFuel n g gs = some fs := by
  intro m
  induction m with
  | zero => intro n g gs fs _ h; simp [resolveFuel] at h
  | succ m ih =>
    intro n g gs fs hmn h
    cases n with
    | zero => omega
    | succ n =>
      cases href : g.references with
      | none => simp only [resolveFuel, href] at h ⊢; exact h
      | some r =>
        simp only [resolveFuel, href] at h ⊢
        cases hidx : pyIdx gs ((r : Int) - 1) with
        | none => simp only [hidx] at h; simp at h
        | some rg =>
          simp only [hidx] at h ⊢
          rcases Option.map_eq_some'.mp h with ⟨fs', hfs', hmap⟩
          rw [ih n rg gs fs' (by omega) hfs']
          simpa using hmap

/-- For a positive reference `r`, the Python subscript
`all_groups[r - 1]` is the plain list lookup at `r - 1`. -/
lemma pyIdx_pos (gs : List Group) (r : Nat) (h : 1 ≤ r) :
    pyIdx gs ((r : Int) - 1) = gs.get? (r - 1) := by
  have h0 : (0 : Int) ≤ (r : Int) - 1 := by omega
  rw [pyIdx, if_pos h0]
  congr 1
  omega

/-- Termination of `_resolve_group_features` for a validated group list
whose references are all positive: fuel one more than the group's index
always suffices. -/
lemma resolve_terminates (gs : List Group)
    (hok : validateRefs gs = .ok ()) (hpos : refsPositive gs = true) :
    ∀ i g, gs.get? i = some g → (resolveFuel (i + 1) g gs).isSome = true := by
  intro i
  induction i using Nat.strong_induction_on with
  | _ i ih =>
    intro g hg
    cases href : g.references with
    | none => simp [resolveFuel, href]
    | some r =>
      have hbound := validateRefsAux_bound gs 1 gs.length hok i g r hg href
      have hr1 : 1 ≤ r := by
        have hmem : g ∈ gs := List.get?_mem hg
        have hall := List.all_eq_true.mp (by simpa [refsPositive] using hpos) g hmem
        rw [href] at hall
        simpa using hall
      have hridx : r - 1 < i := by omega
      have hi : i < gs.length := by
        rcases List.get?_eq_some.mp hg with ⟨h, _⟩
        exact h
      obtain ⟨rg, hrg⟩ : ∃ rg, gs.get? (r - 1) = some rg := by
        have hlen : r - 1 < gs.length := by omega
        exact ⟨gs.get ⟨r - 1, hlen⟩, List.get?_eq_get hlen⟩
      have hrec := ih (r - 1) hridx rg hrg
      obtain ⟨fs, hfs⟩ := Option.isSome_iff_exists.mp hrec
      have hfs2 : resolveFuel i rg gs = some fs :=
        resolveFuel_mono (r - 1 + 1) i rg gs fs (by omega) hfs
      have hrg2 : gs[r - 1]? = some rg := by
        simpa [List.get?_eq_getElem?] using hrg
      simp [resolveFuel, href, pyIdx_pos gs r hr1, hrg2, hfs2]

/-- Setting the case slot to an exact `CASE_VALUES` member preserves
slot exactness. -/
lemma fieldsExact_setCase (t : VToken) (f : String) (hf : f ∈ CASE_VALUES)
    (hx : fieldsExact t = true) : fieldsExact { t with case := some f } = true := by
  simp only [fieldsExact, optIn, Bool.and_eq_true, decide_eq_true_eq] at hx ⊢
  obtain ⟨⟨⟨⟨⟨_, h2⟩, h3⟩, h4⟩, h5⟩, h6⟩ := hx
  exact ⟨⟨⟨⟨⟨hf, h2⟩, h3⟩, h4⟩, h5⟩, h6⟩

/-- Setting the gender slot to an exact `GENDER_VALUES` member preserves
slot exactness. -/
lemma fieldsExact_setGender (t : VToken) (f : String) (hf : f ∈ GENDER_VALUES)
    (hx : fieldsExact t = true) : fieldsExact { t with gender := some f } = true := by
  simp only [fieldsExact, optIn, Bool.and_eq_true, decide_eq_true_eq] at hx ⊢
  obtain ⟨⟨⟨⟨⟨h1, _⟩, h3⟩, h4⟩, h5⟩, h6⟩ := hx
  exact ⟨⟨⟨⟨⟨h1, hf⟩, h3⟩, h4⟩, h5⟩, h6⟩

/-- Setting the number slot to an exact `NUMBER_VALUES` member preserves
slot exactness. -/
lemma fieldsExact_setNumber (t : VToken) (f : String) (hf : f ∈ NUMBER_VALUES)
    (hx : fieldsExact t = true) : fieldsExact { t with number := some f } = true := by
  simp only [fieldsExact, optIn, Bool.and_eq_true, decide_eq_true_eq] at hx ⊢
  obtain ⟨⟨⟨⟨⟨h1, h2⟩, _⟩, h4⟩, h5⟩, h6⟩ := hx
  exact ⟨⟨⟨⟨⟨h1, h2⟩, hf⟩, h4⟩, h5⟩, h6⟩

/-- Setting the tense slot to an exact `TENSE_VALUES` member preserves
slot exactness. -/
lemma fieldsExact_setTense (t : VToken) (f : String) (hf : f ∈ TENSE_VALUES)
    (hx : fieldsExact t = true) : fieldsExact { t with tense := some f } = true := by
  simp only [fieldsExact, optIn, Bool.and_eq_true, decide_eq_true_eq] at hx ⊢
  obtain ⟨⟨⟨⟨⟨h1, h2⟩, h3⟩, _⟩, h5⟩, h6⟩ := hx
  exact ⟨⟨⟨⟨⟨h1, h2⟩, h3⟩, hf⟩, h5⟩, h6⟩

/-- Setting the voice slot to an exact `VOICE_VALUES` member preserves
slot exactness. -/
lemma fieldsExact_setVoice (t : VToken) (f : String) (hf : f ∈ VOICE_VALUES)
    (hx : fieldsExact t = true) : fieldsExact { t with voice := some f } = true := by
  simp only [fieldsExact, optIn, Bool.and_eq_true, decide_eq_true_eq] at hx ⊢
  obtain ⟨⟨⟨⟨⟨h1, h2⟩, h3⟩, h4⟩, _⟩, h6⟩ := hx
  exact ⟨⟨⟨⟨⟨h1, h2⟩, h3⟩, h4⟩, hf⟩, h6⟩

/-- Setting the person slot to an exact `PERSON_VALUES` member preserves
slot exactness. -/
lemma fieldsExact_setPerson (t : VToken) (f : String) (hf : f ∈ PERSON_VALUES)
    (hx : fieldsExact t = true) : fieldsExact { t with person := some f } = true := by
  simp only [fieldsExact, optIn, Bool.and_eq_true, decide_eq_true_eq] at hx ⊢
  obtain ⟨⟨⟨⟨⟨h1, h2⟩, h3⟩, h4⟩, h5⟩, _⟩ := hx
  exact ⟨⟨⟨⟨⟨h1, h2⟩, h3⟩, h4⟩, h5⟩, hf⟩

/-- The nominal assignment loop only stores exact members of the
respective value sets and never touches the lexical type. -/
lemma assignNominal_post (lex : String) :
    ∀ (fs : List String) (t t2 : VToken), fieldsExact t = true →
      assignNominal lex t fs = .ok t2 →
      fieldsExact t2 = true ∧ t2.lexical = t.lexical := by
  intro fs
  induction fs with
  | nil =>
    intro t t2 hx h
    rw [assignNominal] at h
    injection h with h
    subst h
    exact ⟨hx, rfl⟩
  | cons f fs ih =>
    intro t t2 hx h
    rw [assignNominal] at h
    split at h
    case isTrue hc =>
      rcases ih _ t2 (fieldsExact_setCase t f hc.1 hx) h with ⟨h1, h2⟩
      exact ⟨h1, h2⟩
    case isFalse =>
      split at h
      case isTrue hc =>
        rcases ih _ t2 (fieldsExact_setGender t f hc.1 hx) h with ⟨h1, h2⟩
        exact ⟨h1, h2⟩
      case isFalse =>
        split at h
        case isTrue hc =>
          rcases ih _ t2 (fieldsExact_setNumber t f hc.1 hx) h with ⟨h1, h2⟩
          exact ⟨h1, h2⟩
        case isFalse => exact absurd h (by simp)

/-- The verbal assignment loop only stores exact members of the
respective value sets and never touches the lexical type. -/
lemma assignVerbal_post (lex : String) :
    ∀ (fs : List String) (t t2 : VToken), fieldsExact t = true →
      assignVerbal lex t fs = .ok t2 →
      fieldsExact t2 = true ∧ t2.lexical = t.lexical := by
  intro fs
  induction fs with
  | nil =>
    intro t t2 hx h
    rw [assignVerbal] at h
    injection h with h
    subst h
    exact ⟨hx, rfl⟩
  | cons f fs ih =>
    intro t t2 hx h
    rw [assignVerbal] at h
    split at h
    case isTrue hc =>
      rcases ih _ t2 (fieldsExact_setTense t f hc.1 hx) h with ⟨h1, h2⟩
      exact ⟨h1, h2⟩
    case isFalse =>
      split at h
      case isTrue hc =>
        rcases ih _ t2 (fieldsExact_setVoice t f hc.1 hx) h with ⟨h1, h2⟩
        exact ⟨h1, h2⟩
      case isFalse =>
        split at h
        case isTrue hc =>
          rcases ih _ t2 (fieldsExact_setPerson t f hc.1 hx) h with ⟨h1, h2⟩
          exact ⟨h1, h2⟩
        case isFalse =>
          split at h
          case isTrue hc =>
            rcases ih _ t2 (fieldsExact_setNumber t f hc.1 hx) h with ⟨h1, h2⟩
            exact ⟨h1, h2⟩
          case isFalse => exact absurd h (by simp)

/-- The pronoun assignment loop only stores exact members of the
respective value sets and never touches the lexical type. -/
lemma assignPronoun_post (lex : String) :
    ∀ (fs : List String) (t t2 : VToken), fieldsExact t = true →
      assignPronoun lex t fs = .ok t2 →
      fieldsExact t2 = true ∧ t2.lexical = t.lexical := by
  intro fs
  induction fs with
  | nil =>
    intro t t2 hx h
    rw [assignPronoun] at h
    injection h with h
    subst h
    exact ⟨hx, rfl⟩
  | cons f fs ih =>
    intro t t2 hx h
    rw [assignPronoun] at h
    split at h
    case isTrue hc =>
      rcases ih _ t2 (fieldsExact_setCase t f hc.1 hx) h with ⟨h1, h2⟩
      exact ⟨h1, h2⟩
    case isFalse =>
      split at h
      case isTrue hc =>
        rcases ih _ t2 (fieldsExact_setPerson t f hc.1 hx) h with ⟨h1, h2⟩
        exact ⟨h1, h2⟩
      case isFalse =>
        split at h
        case isTrue hc =>
          rcases ih _ t2 (fieldsExact_setNumber t f hc.1 hx) h with ⟨h1, h2⟩
          exact ⟨h1, h2⟩
        case isFalse =>
          split at h
          case isTrue hc =>
            rcases ih _ t2 (fieldsExact_setGender t f hc.1 hx) h with ⟨h1, h2⟩
            exact ⟨h1, h2⟩
          case isFalse => exact absurd h (by simp)

/-- Python `split` never returns an empty list of parts. -/
lemma splitChar_ne_nil (sep : Char) (cs : List Char) : splitChar sep cs ≠ [] := by
  cases cs with
  | nil => simp [splitChar]
  | cons c rest =>
    rw [splitChar]
    by_cases hc : c = sep
    · simp [hc]
    · simp only [if_neg hc]
      cases splitChar sep rest <;> simp

/-- The stripped first part of the colon split is `firstSegment`. -/
lemma headD_map_split (cs : List Char) :
    ((splitChar ':' cs).map (fun p => String.mk (trimChars p))).headD "" =
      firstSegment cs := by
  cases hs : splitChar ':' cs with
  | nil => exact absurd hs (splitChar_ne_nil ':' cs)
  | cons a l => simp [firstSegment, hs]

/-- `_parse_nominal_features` preserves slot exactness and the lexical
type. -/
lemma parseNominalFeatures_post (t t2 : VToken) (features : List String)
    (lex : String) (hx : fieldsExact t = true)
    (h : parseNominalFeatures t features lex = .ok t2) :
    fieldsExact t2 = true ∧ t2.lexical = t.lexical := by
  rw [parseNominalFeatures] at h
  split at h
  · exact absurd h (by simp)
  · cases ha : assignNominal lex t features with
    | error e => rw [ha] at h; exact absurd h (by simp)
    | ok t1 =>
      simp only [ha] at h
      split at h
      · exact absurd h (by simp)
      · injection h with h; subst h
        exact assignNominal_post lex features t t1 hx ha

/-- `_parse_verbal_features` preserves slot exactness and the lexical
type. -/
lemma parseVerbalFeatures_post (t t2 : VToken) (features : List String)
    (lex : String) (hx : fieldsExact t = true)
    (h : parseVerbalFeatures t features lex = .ok t2) :
    fieldsExact t2 = true ∧ t2.lexical = t.lexical := by
  rw [parseVerbalFeatures] at h
  split at h
  · exact absurd h (by simp)
  · cases ha : assignVerbal lex t features with
    | error e => rw [ha] at h; exact absurd h (by simp)
    | ok t1 =>
      simp only [ha] at h
      split at h
      · exact absurd h (by simp)
      · injection h with h; subst h
        exact assignVerbal_post lex features t t1 hx ha

/-- `_parse_pronoun_features` preserves slot exactness and the lexical
type. -/
lemma parsePronounFeatures_post (t t2 : VToken) (features : List String)
    (lex : String) (hx : fieldsExact t = true)
    (h : parsePronounFeatures t features lex = .ok t2) :
    fieldsExact t2 = true ∧ t2.lexical = t.lexical := by
  rw [parsePronounFeatures] at h
  split at h
  · exact absurd h (by simp)
  · cases ha : assignPronoun lex t features with
    | error e => rw [ha] at h; exact absurd h (by simp)
    | ok t1 =>
      simp only [ha] at h
      split at h
      · exact absurd h (by simp)
      · injection h with h; subst h
        exact assignPronoun_post lex features t t1 hx ha

/-- Postcondition of `Template._parse_token`: the accepted lexical type
is the stripped first colon segment, exactly as written and exactly a
member of `LEXICAL_VALUES`; every stored feature is an exact member of
its category value set. -/
lemma parseTok_post (cs : List Char) (t : VToken) (h : parseTok cs = .ok t) :
    t.lexical ∈ LEXICAL_VALUES ∧ t.lexical = firstSegment cs ∧
      fieldsExact t = true := by
  simp only [parseTok] at h
  split at h
  · exact absurd h (by simp)
  · next hmem =>
    rw [not_not] at hmem
    rw [headD_map_split cs] at hmem h
    split at h
    · split at h
      · exact absurd h (by simp)
      · injection h with h; subst h; exact ⟨hmem, rfl, rfl⟩
    · split at h
      · rcases parseNominalFeatures_post ⟨_, none, none, none, none, none, none⟩ t _ _ rfl h with ⟨h1, h2⟩
        rw [h2]
        exact ⟨hmem, rfl, h1⟩
      · split at h
        · rcases parseVerbalFeatures_post ⟨_, none, none, none, none, none, none⟩ t _ _ rfl h with ⟨h1, h2⟩
          rw [h2]
          exact ⟨hmem, rfl, h1⟩
        · split at h
          · rcases parsePronounFeatures_post ⟨_, none, none, none, none, none, none⟩ t _ _ rfl h with ⟨h1, h2⟩
            rw [h2]
            exact ⟨hmem, rfl, h1⟩
          · injection h with h; subst h; exact ⟨hmem, rfl, rfl⟩

/-- Every element of a successful `mapME` run is the image of some input
element. -/
lemma mapME_ok_mem (f : α → Except ε β) :
    ∀ (xs : List α) (ys : List β), mapME f xs = .ok ys →
      ∀ y ∈ ys, ∃ x ∈ xs, f x = .ok y := by
  intro xs
  induction xs with
  | nil =>
    intro ys h y hy
    rw [mapME] at h
    injection h with h
    subst h
    simp at hy
  | cons x xs ih =>
    intro ys h y hy
    rw [mapME] at h
    cases hf : f x with
    | error e => simp only [hf] at h; exact absurd h (by simp)
    | ok y0 =>
      simp only [hf] at h
      cases hrest : mapME f xs with
      | error e => simp only [hrest] at h; exact absurd h (by simp)
      | ok ys0 =>
        simp only [hrest] at h
        injection h with h
        subst h
        rcases List.mem_cons.mp hy with hy | hy
        · exact ⟨x, by simp, by rw [hf, hy]⟩
        · rcases ih ys0 hrest y hy with ⟨x2, hx2, hfx2⟩
          exact ⟨x2, by simp [hx2], hfx2⟩

/-- Every group produced by the `V1Parser` conversion loop comes from
one parsed token: its features are that token's expansion and its single
`POSToken` carries no direct features. -/
lemma convertTokens_mem : ∀ (ts : List VToken) (i : Nat) (gs : List Group),
    convertTokens ts i = .ok gs → ∀ g ∈ gs, ∃ t ∈ ts,
      expandFeatures t.features = .ok g.group_features ∧
      g.tokens = [⟨t.lexical, []⟩] := by
  intro ts
  induction ts with
  | nil =>
    intro i gs h g hg
    rw [convertTokens] at h
    injection h with h
    subst h
    simp at hg
  | cons t ts ih =>
    intro i gs h g hg
    rw [convertTokens] at h
    cases hf : expandFeatures t.features with
    | error e => simp only [hf] at h; exact absurd h (by simp)
    | ok feats =>
      simp only [hf] at h
      cases hrest : convertTokens ts (i + 1) with
      | error e => simp only [hrest] at h; exact absurd h (by simp)
      | ok rest =>
        simp only [hrest] at h
        injection h with h
        subst h
        rcases List.mem_cons.mp hg with hg | hg
        · subst hg; exact ⟨t, by simp, hf, rfl⟩
        · rcases ih (i + 1) rest hrest g hg with ⟨t2, ht2, h1, h2⟩
          exact ⟨t2, by simp [ht2], h1, h2⟩

/-- Exact resolution of every `CASE_VALUES` member. -/
lemma getCategory_caseVals : ∀ v ∈ CASE_VALUES, getCategory v = .ok (v, "case") := by
  decide

/-- Exact resolution of every `GENDER_VALUES` member. -/
lemma getCategory_genderVals : ∀ v ∈ GENDER_VALUES,
    getCategory v = .ok (v, "gender") := by decide

/-- Exact resolution of every `NUMBER_VALUES` member. -/
lemma getCategory_numberVals : ∀ v ∈ NUMBER_VALUES,
    getCategory v = .ok (v, "number") := by decide

/-- Exact resolution of every `TENSE_VALUES` member. -/
lemma getCategory_tenseVals : ∀ v ∈ TENSE_VALUES,
    getCategory v = .ok (v, "tense") := by decide

/-- Exact resolution of every `VOICE_VALUES` member. -/
lemma getCategory_voiceVals : ∀ v ∈ VOICE_VALUES,
    getCategory v = .ok (v, "voice") := by decide

/-- Exact resolution of every `PERSON_VALUES` member. -/
lemma getCategory_personVals : ∀ v ∈ PERSON_VALUES,
    getCategory v = .ok (v, "person") := by decide

/-- Every entry of `features()` of an exact-slot token resolves exactly,
to its own category key. -/
lemma features_entries_exact (t : VToken) (hx : fieldsExact t = true) :
    ∀ p ∈ t.features, getCategory p.snd = .ok (p.snd, p.fst) := by
  intro p hp
  simp only [fieldsExact, Bool.and_eq_true] at hx
  simp only [VToken.features, List.mem_append] at hp
  rcases hp with ((((hp | hp) | hp) | hp) | hp) | hp
  · cases hc : t.case with
    | none => rw [hc] at hp; simp [optEntry] at hp
    | some v =>
      rw [hc] at hp
      simp only [optEntry, List.mem_singleton] at hp
      subst hp
      have hmem := hx.1.1.1.1.1
      rw [hc] at hmem
      exact getCategory_caseVals v (by simpa [optIn] using hmem)
  · cases hc : t.gender with
    | none => rw [hc] at hp; simp [optEntry] at hp
    | some v =>
      rw [hc] at hp
      simp only [optEntry, List.mem_singleton] at hp
      subst hp
      have hmem := hx.1.1.1.1.2
      rw [hc] at hmem
      exact getCategory_genderVals v (by simpa [optIn] using hmem)
  · cases hc : t.number with
    | none => rw [hc] at hp; simp [optEntry] at hp
    | some v =>
      rw [hc] at hp
      simp only [optEntry, List.mem_singleton] at hp
      subst hp
      have hmem := hx.1.1.1.2
      rw [hc] at hmem
      exact getCategory_numberVals v (by simpa [optIn] using hmem)
  · cases hc : t.tense with
    | none => rw [hc] at hp; simp [optEntry] at hp
    | some v =>
      rw [hc] at hp
      simp only [optEntry, List.mem_singleton] at hp
      subst hp
      have hmem := hx.1.1.2
      rw [hc] at hmem
      exact getCategory_tenseVals v (by simpa [optIn] using hmem)
  · cases hc : t.voice with
    | none => rw [hc] at hp; simp [optEntry] at hp
    | some v =>
      rw [hc] at hp
      simp only [optEntry, List.mem_singleton] at hp
      subst hp
      have hmem := hx.1.2
      rw [hc] at hmem
      exact getCategory_voiceVals v (by simpa [optIn] using hmem)
  · cases hc : t.person with
    | none => rw [hc] at hp; simp [optEntry] at hp
    | some v =>
      rw [hc] at hp
      simp only [optEntry, List.mem_singleton] at hp
      subst hp
      have hmem := hx.2
      rw [hc] at hmem
      exact getCategory_personVals v (by simpa [optIn] using hmem)

/-- The feature-expansion loop maps exactly-resolving entries to their
`Feature` images, in order. -/
lemma mapME_expand : ∀ (entries : List (String × String)),
    (∀ p ∈ entries, getCategory p.snd = .ok (p.snd, p.fst)) →
    mapME (fun e => (getCategory e.snd).mapError V1Error.feature) entries =
      .ok (entries.map (fun p => (p.snd, p.fst))) := by
  intro entries
  induction entries with
  | nil => intro _; rfl
  | cons p ps ih =>
    intro hall
    have hp := hall p (by simp)
    rw [mapME, hp, ih (fun q hq => hall q (by simp [hq]))]
    rfl

/-- `expandFeatures` of exactly-resolving entries: each `(category,
value)` entry becomes the feature `(value, category)`. -/
lemma expandFeatures_of_exact (entries : List (String × String))
    (hall : ∀ p ∈ entries, getCategory p.snd = .ok (p.snd, p.fst)) :
    expandFeatures entries = .ok (entries.map (fun p => ⟨p.snd, p.fst⟩)) := by
  rw [expandFeatures, mapME_expand entries hall]
  simp [List.map_map]

/-- The keys contributed by one slot form a sublist of its singleton
category key. -/
lemma optEntry_keys (cat : String) (v : Option String) :
    ((optEntry cat v).map Prod.fst).Sublist [cat] := by
  cases v <;> simp [optEntry]

/-- The category keys of `features()` form a sublist of the six distinct
category names. -/
lemma features_keys_sublist (t : VToken) :
    (t.features.map Prod.fst).Sublist
      ["case", "gender", "number", "tense", "voice", "person"] := by
  show (t.features.map Prod.fst).Sublist
    (((((["case"] ++ ["gender"]) ++ ["number"]) ++ ["tense"]) ++
      ["voice"]) ++ ["person"])
  simp only [VToken.features, List.map_append]
  exact (((((optEntry_keys "case" t.case).append
    (optEntry_keys "gender" t.gender)).append
      (optEntry_keys "number" t.number)).append
        (optEntry_keys "tense" t.tense)).append
          (optEntry_keys "voice" t.voice)).append
            (optEntry_keys "person" t.person)

/-- The category keys of `features()` are pairwise distinct. -/
lemma features_keys_nodup (t : VToken) : (t.features.map Prod.fst).Nodup :=
  List.Nodup.sublist (features_keys_sublist t) (by decide)

/-- A merge-dict update keeps the invariant that every entry is keyed by
its feature's category. -/
lemma updAssoc_wf (d : List (String × Feature)) (f : Feature)
    (hd : ∀ p ∈ d, (p.snd).category = p.fst) :
    ∀ p ∈ updAssoc d f, (p.snd).category = p.fst := by
  induction d with
  | nil =>
    intro p hp
    simp only [updAssoc, List.mem_singleton] at hp
    subst hp
    rfl
  | cons kv rest ih =>
    obtain ⟨k, v⟩ := kv
    intro p hp
    rw [updAssoc] at hp
    by_cases hk : f.category = k
    · rw [if_pos hk] at hp
      rcases List.mem_cons.mp hp with hp | hp
      · subst hp; exact hk
      · exact hd p (by simp [hp])
    · rw [if_neg hk] at hp
      rcases List.mem_cons.mp hp with hp | hp
      · subst hp; exact hd (k, v) (by simp)
      · exact ih (fun q hq => hd q (by simp [hq])) p hp

/-- The merge dict built from a base feature list satisfies the key
invariant. -/
lemma foldl_updAssoc_wf (base : List Feature) :
    ∀ d, (∀ p ∈ d, (p.snd).category = p.fst) →
      ∀ p ∈ base.foldl updAssoc d, (p.snd).category = p.fst := by
  induction base with
  | nil => intro d hd; simpa using hd
  | cons f fs ih =>
    intro d hd
    rw [List.foldl_cons]
    exact ih _ (updAssoc_wf d f hd)

/-- After an update, the dict maps the feature's category to exactly that
feature. -/
lemma lookupAssoc_updAssoc_self (d : List (String × Feature)) (f : Feature) :
    lookupAssoc (updAssoc d f) f.category = some f := by
  induction d with
  | nil => simp [updAssoc, lookupAssoc]
  | cons kv rest ih =>
    obtain ⟨k, v⟩ := kv
    by_cases hk : f.category = k
    · simp [updAssoc, hk, lookupAssoc]
    · simp [updAssoc, hk, lookupAssoc, ih]

/-- On a well-keyed dict, searching the value list by category is the
dict lookup. -/
lemma find_map_snd (d : List (String × Feature)) (c : String)
    (hd : ∀ p ∈ d, (p.snd).category = p.fst) :
    (d.map Prod.snd).find? (fun x => decide (x.category = c)) =
      lookupAssoc d c := by
  induction d with
  | nil => simp [lookupAssoc]
  | cons kv rest ih =>
    obtain ⟨k, v⟩ := kv
    have hv : v.category = k := hd (k, v) (by simp)
    by_cases hc : c = k
    · subst hc
      simp [lookupAssoc, List.find?, hv]
    · have hvc : ¬ v.category = c := by rw [hv]; exact fun hh => hc hh.symm
      simp [lookupAssoc, List.find?, hvc, hc,
        ih (fun q hq => hd q (by simp [hq]))]

/-- Updating a dict adds exactly the feature's category to its key set. -/
lemma lookupAssoc_isSome_updAssoc (d : List (String × Feature)) (f : Feature)
    (c : String) :
    (lookupAssoc (updAssoc d f) c).isSome =
      ((lookupAssoc d c).isSome || decide (f.category = c)) := by
  induction d with
  | nil =>
    by_cases hc : c = f.category
    · simp [updAssoc, lookupAssoc, hc]
    · have : ¬ f.category = c := fun hh => hc hh.symm
      simp [updAssoc, lookupAssoc, hc, this]
  | cons kv rest ih =>
    obtain ⟨k, v⟩ := kv
    rw [updAssoc]
    by_cases hk : f.category = k
    · rw [if_pos hk]
      by_cases hc : c = k
      · simp [lookupAssoc, hc]
      · have : ¬ f.category = c := by rw [hk]; exact fun hh => hc hh.symm
        simp [lookupAssoc, hc, this]
    · rw [if_neg hk]
      by_cases hc : c = k
      · simp [lookupAssoc, hc]
      · simp [lookupAssoc, hc, ih]

/-- The key set of the dict built from a base list is the set of base
categories. -/
lemma lookupAssoc_foldl_isSome (base : List Feature) :
    ∀ (d : List (String × Feature)) (c : String),
      (lookupAssoc (base.foldl updAssoc d) c).isSome =
        ((lookupAssoc d c).isSome ||
          base.any (fun b => decide (b.category = c))) := by
  induction base with
  | nil => intro d c; simp
  | cons f fs ih =>
    intro d c
    rw [List.foldl_cons, ih, lookupAssoc_isSome_updAssoc]
    simp [Bool.or_assoc]

/-- A run of characters all satisfying `p` is taken whole. -/
lemma takeWhile_all {p : Char → Bool} :
    ∀ (l : List Char), l.all p = true → l.takeWhile p = l := by
  intro l
  induction l with
  | nil => intro _; rfl
  | cons c cs ih =>
    intro h
    rw [List.all_cons, Bool.and_eq_true] at h
    rw [List.takeWhile_cons, h.1]
    simpa using ih h.2

/-- A run of characters all satisfying `p` is dropped whole. -/
lemma dropWhile_all {p : Char → Bool} :
    ∀ (l : List Char), l.all p = true → l.dropWhile p = [] := by
  intro l
  induction l with
  | nil => intro _; rfl
  | cons c cs ih =>
    intro h
    rw [List.all_cons, Bool.and_eq_true] at h
    rw [List.dropWhile_cons, h.1]
    simpa using ih h.2

/-- The token scan of an empty span is empty at any fuel. -/
lemma findTokensAux_nil (n : Nat) : findTokensAux n [] = [] := by
  cases n <;> rfl

/-- Every list is a prefix of itself. -/
lemma isPref_refl : ∀ (l : List Char), isPref l l = true := by
  intro l
  induction l with
  | nil => rfl
  | cons c cs ih => simp [isPref, ih]

/-! ## Claim theorems -/

/-- C8: Syntax-A feature resolution is order-independent: the templates
`[noun:nom:masc:sg]`, `[noun:sg:nom:masc]` and `[noun:masc:sg:nom]` all
parse successfully and all resolve to the identical feature set
`{case:nom, gender:masc, number:sg}` (here: the identical single-group
AST). -/
theorem C8_feature_order_independence :
    v1Parse "[noun:nom:masc:sg]" =
      .ok ⟨[⟨[⟨"noun", []⟩],
        [⟨"nom", "case"⟩, ⟨"masc", "gender"⟩, ⟨"sg", "number"⟩], 1, none⟩], 1⟩ ∧
    v1Parse "[noun:sg:nom:masc]" =
      .ok ⟨[⟨[⟨"noun", []⟩],
        [⟨"nom", "case"⟩, ⟨"masc", "gender"⟩, ⟨"sg", "number"⟩], 1, none⟩], 1⟩ ∧
    v1Parse "[noun:masc:sg:nom]" =
      .ok ⟨[⟨[⟨"noun", []⟩],
        [⟨"nom", "case"⟩, ⟨"masc", "gender"⟩, ⟨"sg", "number"⟩], 1, none⟩], 1⟩ := by
  exact ⟨by rfl, by rfl, by rfl⟩

/-- C5: `FeatureMapper` resolution returns an exact table match first
(e.g. `person`, although it is also a prefix of `personal_strong` and
`personal_weak`); otherwise it collects the table keys having the token
as a prefix and returns the unique candidate, failing with
`UnknownFeature` on zero candidates and with `AmbiguousFeature` listing
all conflicts on several; any success returns a canonical table entry
the token is a prefix of. -/
theorem C5_feature_mapper_resolution :
    (∀ tok cat, lookupTable FEATURE_CATEGORIES tok = some cat →
      getCategory tok = .ok (tok, cat)) ∧
    (∀ tok, lookupTable FEATURE_CATEGORIES tok = none →
      prefixCandidates tok = [] →
      getCategory tok = .error (.unknownFeature tok)) ∧
    (∀ tok k cat, lookupTable FEATURE_CATEGORIES tok = none →
      prefixCandidates tok = [k] →
      lookupTable FEATURE_CATEGORIES k = some cat →
      getCategory tok = .ok (k, cat)) ∧
    (∀ tok k k2 ks, lookupTable FEATURE_CATEGORIES tok = none →
      prefixCandidates tok = (k :: k2 :: ks) →
      getCategory tok = .error (.ambiguousFeature tok (k :: k2 :: ks))) ∧
    (∀ tok k cat, getCategory tok = .ok (k, cat) →
      isPref tok.data k.data = true ∧
        lookupTable FEATURE_CATEGORIES k = some cat) ∧
    getCategory "person" = .ok ("person", "person") ∧
    prefixCandidates "person" = ["person", "personal_strong", "personal_weak"] := by
  refine ⟨?_, ?_, ?_, ?_, ?_, by rfl, by rfl⟩
  · intro tok cat hl
    rw [getCategory, hl]
  · intro tok hl hc
    rw [getCategory, hl, hc]
  · intro tok k cat hl hc hk
    simp only [getCategory, hl, hc]
    rw [hk]
  · intro tok k k2 ks hl hc
    simp only [getCategory, hl, hc]
  · intro tok k cat h
    rw [getCategory] at h
    cases hl : lookupTable FEATURE_CATEGORIES tok with
    | some c0 =>
      simp only [hl] at h
      injection h with h
      injection h with h1 h2
      subst h1; subst h2
      exact ⟨isPref_refl tok.data, hl⟩
    | none =>
      simp only [hl] at h
      cases hc : prefixCandidates tok with
      | nil => simp only [hc] at h; exact absurd h (by simp)
      | cons k1 ks1 =>
        cases ks1 with
        | nil =>
          simp only [hc] at h
          cases hk : lookupTable FEATURE_CATEGORIES k1 with
          | some c1 =>
            simp only [hk] at h
            injection h with h
            injection h with h1 h2
            subst h1; subst h2
            have hkmem : k1 ∈ (FEATURE_CATEGORIES.map Prod.fst).filter
                (fun q => isPref tok.data q.data) := by
              have hmm : k1 ∈ prefixCandidates tok := by rw [hc]; simp
              exact hmm
            exact ⟨(List.mem_filter.mp hkmem).2, hk⟩
          | none => simp only [hk] at h; exact absurd h (by simp)
        | cons k2a ks2 => simp only [hc] at h; exact absurd h (by simp)

/-- C5 witness: the general exact-match clause applied to `masc`. -/
theorem C5_feature_mapper_resolution_witness :
    getCategory "masc" = .ok ("masc", "gender") :=
  C5_feature_mapper_resolution.1 "masc" "gender" (by rfl)

/-- C1 counterexample: `$0` matches the `\$\d+` pattern and passes
reference validation, so the second group of
`(article)@{nom:sg} (noun)@$0` survives parsing with `references = 0`,
outside the claimed range `[1, reference_id)`. -/
theorem C1_counterexample :
    v2Parse "(article)@{nom:sg} (noun)@$0" =
      .ok ⟨[⟨[⟨"article", []⟩], [⟨"nom", "case"⟩, ⟨"sg", "number"⟩], 1, none⟩,
           ⟨[⟨"noun", []⟩], [], 2, some 0⟩], 2⟩ ∧
    refsInClaimedRange
      [⟨[⟨"article", []⟩], [⟨"nom", "case"⟩, ⟨"sg", "number"⟩], 1, none⟩,
       ⟨[⟨"noun", []⟩], [], 2, some 0⟩] = false := by
  exact ⟨by rfl, by rfl⟩

/-- C1 (amended): reference validation succeeds exactly when every
group's reference `N` satisfies `N ≤ total groups` and
`N < reference_id` (0 is allowed, so surviving references satisfy
`0 ≤ N < reference_id`); `(noun)@$5` raises `NonExistentReference` and
`(noun)@$1` raises `ForwardOrSelfReference`. -/
theorem C1_validation_bounds :
    (∀ gs : List Group, validateRefs gs = .ok () ↔ checkRefBounds gs = true) ∧
    v2Parse "(noun)@$5" = .error (.nonExistentReference 5 1) ∧
    v2Parse "(noun)@$1" = .error (.forwardOrSelfReference 1 1) := by
  refine ⟨?_, by rfl, by rfl⟩
  intro gs
  exact validateRefsAux_ok_iff gs 1 gs.length

/-- C1 witness: the enforced bounds hold for the parsed groups of the
`$0` template, which validation accepts. -/
theorem C1_validation_bounds_witness :
    checkRefBounds
      [⟨[⟨"article", []⟩], [⟨"nom", "case"⟩, ⟨"sg", "number"⟩], 1, none⟩,
       ⟨[⟨"noun", []⟩], [], 2, some 0⟩] = true :=
  (C1_validation_bounds.1
    [⟨[⟨"article", []⟩], [⟨"nom", "case"⟩, ⟨"sg", "number"⟩], 1, none⟩,
     ⟨[⟨"noun", []⟩], [], 2, some 0⟩]).mp (by rfl)

/-- C2 counterexample: `(article)@{nom:sg} (noun)@$0` passes reference
validation, but the second group's reference `0` resolves through the
Python subscript `all_groups[-1]` to that same group, so its resolution
never completes (here: fails at resolution depth 100). -/
theorem C2_counterexample :
    v2Parse "(article)@{nom:sg} (noun)@$0" =
      .ok ⟨[⟨[⟨"article", []⟩], [⟨"nom", "case"⟩, ⟨"sg", "number"⟩], 1, none⟩,
           ⟨[⟨"noun", []⟩], [], 2, some 0⟩], 2⟩ ∧
    pyIdx [⟨[⟨"article", []⟩], [⟨"nom", "case"⟩, ⟨"sg", "number"⟩], 1, none⟩,
           ⟨[⟨"noun", []⟩], [], 2, some 0⟩] ((0 : Int) - 1) =
      some ⟨[⟨"noun", []⟩], [], 2, some 0⟩ ∧
    resolveFuel 100 ⟨[⟨"noun", []⟩], [], 2, some 0⟩
      [⟨[⟨"article", []⟩], [⟨"nom", "case"⟩, ⟨"sg", "number"⟩], 1, none⟩,
       ⟨[⟨"noun", []⟩], [], 2, some 0⟩] = none := by
  exact ⟨by rfl, by rfl, by rfl⟩

/-- C2 (amended): for a validated group list all of whose references are
at least 1, resolving any group's features terminates: fuel one more
than the group's index suffices, because validation forces every
reference strictly below the group's own position. -/
theorem C2_resolution_terminates (gs : List Group)
    (hok : validateRefs gs = .ok ()) (hpos : refsPositive gs = true) :
    ∀ i g, gs.get? i = some g → (resolveFuel (i + 1) g gs).isSome = true :=
  resolve_terminates gs hok hpos

/-- C2 witness: the second group of `(article)@{nom:sg} (noun)@$1`
resolves within fuel 2. -/
theorem C2_resolution_terminates_witness :
    (resolveFuel 2 ⟨[⟨"noun", []⟩], [], 2, some 1⟩
      [⟨[⟨"article", []⟩], [⟨"nom", "case"⟩, ⟨"sg", "number"⟩], 1, none⟩,
       ⟨[⟨"noun", []⟩], [], 2, some 1⟩]).isSome = true :=
  C2_resolution_terminates
    [⟨[⟨"article", []⟩], [⟨"nom", "case"⟩, ⟨"sg", "number"⟩], 1, none⟩,
     ⟨[⟨"noun", []⟩], [], 2, some 1⟩] (by rfl) (by rfl) 1
    ⟨[⟨"noun", []⟩], [], 2, some 1⟩ (by rfl)

/-- C3 counterexample: the Syntax-A parser rejects `art` (an unambiguous
prefix abbreviation that `LexicalMapper` resolves to `article`) and the
feature abbreviation `m` (which `FeatureMapper` resolves to `masc`): the
bracket path validates by exact membership, not through the mappers. -/
theorem C3_counterexample :
    v1Parse "[art:nom:masc:sg]" = .error (.unknownPOS "art") ∧
    getLexical "art" = .ok "article" ∧
    v1Parse "[noun:nom:m:sg]" = .error (.invalidOrDuplicateFeature "noun" "m") ∧
    getCategory "m" = .ok ("masc", "gender") := by
  exact ⟨by rfl, by rfl, by rfl, by rfl⟩

/-- C3 (amended): in Syntax-A parsing, segment 0 must be exactly a
member of `LEXICAL_VALUES` (it is taken verbatim as the first stripped
colon segment) and every accepted feature segment is stored as an exact
member of its category's value set; prefix abbreviations are rejected,
the mappers are not consulted for validation. -/
theorem C3_exact_membership (cs : List Char) (t : VToken)
    (h : parseTok cs = .ok t) :
    t.lexical ∈ LEXICAL_VALUES ∧ t.lexical = firstSegment cs ∧
      fieldsExact t = true :=
  parseTok_post cs t h

/-- C3 witness: the exact-name token `noun:nom:masc:sg`. -/
theorem C3_exact_membership_witness :
    "noun" ∈ LEXICAL_VALUES ∧ "noun" = firstSegment "noun:nom:masc:sg".data ∧
      fieldsExact ⟨"noun", some "nom", some "masc", some "sg",
        none, none, none⟩ = true :=
  C3_exact_membership "noun:nom:masc:sg".data
    ⟨"noun", some "nom", some "masc", some "sg", none, none, none⟩ (by rfl)

/-- C4 counterexample: the Syntax-B feature list `{nom:acc}` parses to a
group whose `group_features` holds two features of category `case`: the
V2 parser performs no per-category deduplication. -/
theorem C4_counterexample :
    v2Parse "(noun)@{nom:acc}" =
      .ok ⟨[⟨[⟨"noun", []⟩], [⟨"nom", "case"⟩, ⟨"acc", "case"⟩], 1, none⟩], 2⟩ ∧
    distinctCats [⟨"nom", "case"⟩, ⟨"acc", "case"⟩] = false := by
  exact ⟨by rfl, by rfl⟩

/-- C4 (amended): every group produced by the Syntax-A parser has at
most one feature per category in `group_features`, and its tokens carry
no direct features; the Syntax-B parser does not enforce this bound. -/
theorem C4_v1_one_feature_per_category (s : String) (ast : TemplateAST)
    (h : v1Parse s = .ok ast) :
    ast.groups.all (fun g => distinctCats g.group_features &&
      g.tokens.all (fun tk => tk.direct_features.isEmpty)) = true := by
  simp only [v1Parse] at h
  split at h
  · exact absurd h (by simp)
  · split at h
    · exact absurd h (by simp)
    · cases hts : mapME parseTok (findBrackets s.data) with
      | error e => simp only [hts] at h; exact absurd h (by simp)
      | ok ts =>
        simp only [hts] at h
        cases hgs : convertTokens ts 0 with
        | error e => simp only [hgs] at h; exact absurd h (by simp)
        | ok gs =>
          simp only [hgs] at h
          injection h with h
          subst h
          rw [List.all_eq_true]
          intro g hg
          rcases convertTokens_mem ts 0 gs hgs g hg with ⟨t, ht, hexp, htoks⟩
          rcases mapME_ok_mem parseTok (findBrackets s.data) ts hts t ht with
            ⟨cs0, _, hpt⟩
          rcases parseTok_post cs0 t hpt with ⟨_, _, hx⟩
          have hexp2 := expandFeatures_of_exact t.features
            (features_entries_exact t hx)
          rw [hexp] at hexp2
          injection hexp2 with hexp2
          rw [Bool.and_eq_true]
          constructor
          · rw [distinctCats, hexp2]
            apply decide_eq_true
            have hmm : (t.features.map
                (fun p => (⟨p.snd, p.fst⟩ : Feature))).map Feature.category =
                t.features.map Prod.fst := by
              rw [List.map_map]
              rfl
            rw [hmm]
            exact features_keys_nodup t
          · rw [htoks]
            rfl

/-- C4 witness: the parsed AST of `[noun:nom:masc:sg]`. -/
theorem C4_v1_one_feature_per_category_witness :
    (TemplateAST.groups ⟨[⟨[⟨"noun", []⟩],
        [⟨"nom", "case"⟩, ⟨"masc", "gender"⟩, ⟨"sg", "number"⟩], 1, none⟩],
      1⟩).all (fun g => distinctCats g.group_features &&
        g.tokens.all (fun tk => tk.direct_features.isEmpty)) = true :=
  C4_v1_one_feature_per_category "[noun:nom:masc:sg]"
    ⟨[⟨[⟨"noun", []⟩],
      [⟨"nom", "case"⟩, ⟨"masc", "gender"⟩, ⟨"sg", "number"⟩], 1, none⟩], 1⟩
    (by rfl)

/-- C6: a group without a reference resolves to its own
`group_features`; a group referencing an earlier group resolves to the
referenced group's recursive resolution overlaid with its own features
(category-keyed replace, union otherwise); concretely, in
`(article)@{nom:masc:sg} (noun)@$1` both groups resolve to
`{case:nom, gender:masc, number:sg}` and the second group's token merges
to exactly that set with no overrides. -/
theorem C6_group_feature_resolution :
    (∀ (fuel : Nat) (g : Group) (gs : List Group), g.references = none →
      resolveFuel (fuel + 1) g gs = some g.group_features) ∧
    (∀ (fuel : Nat) (g : Group) (gs : List Group) (r : Nat) (rg : Group),
      g.references = some r → 1 ≤ r → gs.get? (r - 1) = some rg →
      resolveFuel (fuel + 1) g gs =
        (resolveFuel fuel rg gs).map
          (fun fs => mergeFeatures fs g.group_features)) ∧
    v2Parse "(article)@{nom:masc:sg} (noun)@$1" =
      .ok ⟨[⟨[⟨"article", []⟩],
          [⟨"nom", "case"⟩, ⟨"masc", "gender"⟩, ⟨"sg", "number"⟩], 1, none⟩,
          ⟨[⟨"noun", []⟩], [], 2, some 1⟩], 2⟩ ∧
    resolveFuel 2 ⟨[⟨"noun", []⟩], [], 2, some 1⟩
      [⟨[⟨"article", []⟩],
        [⟨"nom", "case"⟩, ⟨"masc", "gender"⟩, ⟨"sg", "number"⟩], 1, none⟩,
       ⟨[⟨"noun", []⟩], [], 2, some 1⟩] =
      some [⟨"nom", "case"⟩, ⟨"masc", "gender"⟩, ⟨"sg", "number"⟩] ∧
    mergeFeaturesEv [⟨"nom", "case"⟩, ⟨"masc", "gender"⟩, ⟨"sg", "number"⟩]
        [] true "noun" =
      ([⟨"nom", "case"⟩, ⟨"masc", "gender"⟩, ⟨"sg", "number"⟩], []) := by
  refine ⟨?_, ?_, by rfl, by rfl, by rfl⟩
  · intro fuel g gs href
    simp [resolveFuel, href]
  · intro fuel g gs r rg href hr hrg
    have hrg2 : gs[r - 1]? = some rg := by
      simpa [List.get?_eq_getElem?] using hrg
    simp [resolveFuel, href, pyIdx_pos gs r hr, hrg2]

/-- C6 witness: the reference clause applied to the second group of the
concrete inheritance example. -/
theorem C6_group_feature_resolution_witness :
    resolveFuel 2 ⟨[⟨"noun", []⟩], [], 2, some 1⟩
      [⟨[⟨"article", []⟩],
        [⟨"nom", "case"⟩, ⟨"masc", "gender"⟩, ⟨"sg", "number"⟩], 1, none⟩,
       ⟨[⟨"noun", []⟩], [], 2, some 1⟩] =
      (resolveFuel 1
        ⟨[⟨"article", []⟩],
          [⟨"nom", "case"⟩, ⟨"masc", "gender"⟩, ⟨"sg", "number"⟩], 1, none⟩
        [⟨[⟨"article", []⟩],
          [⟨"nom", "case"⟩, ⟨"masc", "gender"⟩, ⟨"sg", "number"⟩], 1, none⟩,
         ⟨[⟨"noun", []⟩], [], 2, some 1⟩]).map
        (fun fs => mergeFeatures fs []) :=
  C6_group_feature_resolution.2.1 1 ⟨[⟨"noun", []⟩], [], 2, some 1⟩
    [⟨[⟨"article", []⟩],
      [⟨"nom", "case"⟩, ⟨"masc", "gender"⟩, ⟨"sg", "number"⟩], 1, none⟩,
     ⟨[⟨"noun", []⟩], [], 2, some 1⟩] 1
    ⟨[⟨"article", []⟩],
      [⟨"nom", "case"⟩, ⟨"masc", "gender"⟩, ⟨"sg", "number"⟩], 1, none⟩
    (by rfl) (by decide) (by rfl)

/-- C7: merging a token's direct feature into resolved group features is
category-keyed and the direct feature always wins (the merged list maps
its category to the direct feature), and exactly one non-fatal
`OverrideEvent` is produced when (and only when) the category was
already present; concretely, `(article noun{fem})@{nom:masc:sg}`
resolves the article's gender to `masc`, the noun's gender to `fem`, and
generation succeeds emitting exactly one `OverrideEvent` for category
`gender`. -/
theorem C7_override_events :
    (∀ (base : List Feature) (f : Feature) (tokLex : String),
      ((mergeFeaturesEv base [f] true tokLex).fst.find?
        (fun x => decide (x.category = f.category)) = some f) ∧
      ((mergeFeaturesEv base [f] true tokLex).snd.length =
        if base.any (fun b => decide (b.category = f.category))
        then 1 else 0)) ∧
    v2Parse "(article noun{fem})@{nom:masc:sg}" =
      .ok ⟨[⟨[⟨"article", []⟩, ⟨"noun", [⟨"fem", "gender"⟩]⟩],
        [⟨"nom", "case"⟩, ⟨"masc", "gender"⟩, ⟨"sg", "number"⟩], 1, none⟩], 2⟩ ∧
    mergeFeaturesEv [⟨"nom", "case"⟩, ⟨"masc", "gender"⟩, ⟨"sg", "number"⟩]
        [] true "article" =
      ([⟨"nom", "case"⟩, ⟨"masc", "gender"⟩, ⟨"sg", "number"⟩], []) ∧
    mergeFeaturesEv [⟨"nom", "case"⟩, ⟨"masc", "gender"⟩, ⟨"sg", "number"⟩]
        [⟨"fem", "gender"⟩] true "noun" =
      ([⟨"nom", "case"⟩, ⟨"fem", "gender"⟩, ⟨"sg", "number"⟩],
       [⟨"gender", "masc", "fem", "noun"⟩]) ∧
    generateFromAst lexiconAny
        ⟨[⟨[⟨"article", []⟩, ⟨"noun", [⟨"fem", "gender"⟩]⟩],
          [⟨"nom", "case"⟩, ⟨"masc", "gender"⟩, ⟨"sg", "number"⟩], 1, none⟩],
         2⟩ =
      .ok (["article", "noun"], [⟨"gender", "masc", "fem", "noun"⟩]) := by
  refine ⟨?_, by rfl, by rfl, by rfl, by rfl⟩
  intro base f tokLex
  have hwf : ∀ p ∈ base.foldl updAssoc ([] : List (String × Feature)),
      (p.snd).category = p.fst :=
    foldl_updAssoc_wf base [] (by simp)
  have hkeys : (lookupAssoc (base.foldl updAssoc []) f.category).isSome =
      base.any (fun b => decide (b.category = f.category)) := by
    rw [lookupAssoc_foldl_isSome base [] f.category]
    simp [lookupAssoc]
  cases hl : lookupAssoc (base.foldl updAssoc []) f.category with
  | some old =>
    constructor
    · simp only [mergeFeaturesEv, List.foldl_cons, List.foldl_nil, hl]
      rw [find_map_snd _ _ (updAssoc_wf _ f hwf), lookupAssoc_updAssoc_self]
    · simp only [mergeFeaturesEv, List.foldl_cons, List.foldl_nil, hl]
      rw [hl] at hkeys
      simp at hkeys
      simp [hkeys]
  | none =>
    constructor
    · simp only [mergeFeaturesEv, List.foldl_cons, List.foldl_nil, hl]
      rw [find_map_snd _ _ (updAssoc_wf _ f hwf), lookupAssoc_updAssoc_self]
    · simp only [mergeFeaturesEv, List.foldl_cons, List.foldl_nil, hl]
      rw [hl] at hkeys
      simp at hkeys
      rw [if_neg (by simpa using hkeys)]
      rfl

/-- C9: an input whose stripped text passes the balanced-delimiter and
empty-group pre-checks but contains no match of the group pattern
parses to a `TemplateAST` with zero groups (no error), and generation
over that AST returns the empty word sequence for every lexicon. -/
theorem C9_no_match_empty_ast (s : String) (lex : Lexicon)
    (hp : countChar (trimChars s.data) '(' = countChar (trimChars s.data) ')')
    (hb : countChar (trimChars s.data) '{' = countChar (trimChars s.data) '}')
    (he : hasEmptyGroup (trimChars s.data) = false)
    (hf : findGroups (trimChars s.data) = []) :
    v2Parse s = .ok ⟨[], 2⟩ ∧
      generateFromAst lex ⟨[], 2⟩ = .ok ([], []) := by
  constructor
  · rw [v2Parse, parseGroups, if_neg (by simp [hp]), if_neg (by simp [hb]),
      if_neg (by simp [he]), hf]
    rfl
  · rfl

/-- C9 witness: `(noun)` (no @-spec) and `(noun)@{}` (empty braces) both
pass the pre-checks, match nothing, and generate the empty sequence. -/
theorem C9_no_match_empty_ast_witness :
    (v2Parse "(noun)" = .ok ⟨[], 2⟩ ∧
      generateFromAst lexiconEmpty ⟨[], 2⟩ = .ok ([], [])) ∧
    (v2Parse "(noun)@{}" = .ok ⟨[], 2⟩ ∧
      generateFromAst lexiconEmpty ⟨[], 2⟩ = .ok ([], [])) :=
  ⟨C9_no_match_empty_ast "(noun)" lexiconEmpty (by rfl) (by rfl) (by rfl)
      (by rfl),
   C9_no_match_empty_ast "(noun)@{}" lexiconEmpty (by rfl) (by rfl) (by rfl)
      (by rfl)⟩

/-- C10: the Syntax-B token scan accepts any word-character run as a
lexical type verbatim (no `LexicalMapper` consultation): `(xyzzy)@...`
parses although `LexicalMapper` rejects `xyzzy`, and the failure
surfaces only at generation time as a no-matching-word error carrying
the unknown lexical type. -/
theorem C10_v2_lexical_unchecked :
    (∀ (w : List Char), w ≠ [] → w.all isWordChar = true →
      parseTokens w = .ok [⟨String.mk w, []⟩]) ∧
    v2Parse "(xyzzy)@{nom:masc:sg}" =
      .ok ⟨[⟨[⟨"xyzzy", []⟩],
        [⟨"nom", "case"⟩, ⟨"masc", "gender"⟩, ⟨"sg", "number"⟩], 1, none⟩], 2⟩ ∧
    getLexical "xyzzy" = .error (.unknownLexical "xyzzy") ∧
    generateFromAst lexiconEmpty
        ⟨[⟨[⟨"xyzzy", []⟩],
          [⟨"nom", "case"⟩, ⟨"masc", "gender"⟩, ⟨"sg", "number"⟩], 1, none⟩],
         2⟩ =
      .error (.noMatchingWord "xyzzy"
        [("case", "nom"), ("gender", "masc"), ("number", "sg")]) := by
  refine ⟨?_, by rfl, by rfl, by rfl⟩
  intro w hne hall
  cases w with
  | nil => exact absurd rfl hne
  | cons c rest =>
    have hc : isWordChar c = true := by
      rw [List.all_cons, Bool.and_eq_true] at hall
      exact hall.1
    have htake : (c :: rest).takeWhile isWordChar = c :: rest :=
      takeWhile_all _ hall
    have hdrop : (c :: rest).dropWhile isWordChar = [] :=
      dropWhile_all _ hall
    have hmatch : matchTokenAt (c :: rest) = some (c :: rest, none, []) := by
      rw [matchTokenAt]
      simp [hc, htake, hdrop]
    have hfind : findTokens (c :: rest) = [(c :: rest, none)] := by
      rw [findTokens, List.length_cons, findTokensAux]
      simp only [hmatch]
      rw [findTokensAux_nil]
    rw [parseTokens, hfind]
    rfl

/-- C10 witness: the general word-run clause applied to `xyzzy`. -/
theorem C10_v2_lexical_unchecked_witness :
    parseTokens "xyzzy".data = .ok [⟨"xyzzy", []⟩] :=
  C10_v2_lexical_unchecked.1 "xyzzy".data (by decide) (by decide)

end Syntaxis
